import Mathlib

/-!
Verification of the tic-tac-toe search algorithms in this repository
(`src/main.py` and `monteCarlo.py`).

The board is modelled as a `List Char` (Python `self.board`, a list of nine
one-character strings `' '`, `'X'`, `'O'`).  Python's `float('inf')` /
`-float('inf')` sentinels used by the minimax searchers are modelled by the
type `XInt` of integers extended with two infinities; all comparisons the
program performs on these values (`<`, `<=`, `max`, `min`) are exact on
IEEE doubles for the integer scores involved, so the order on `XInt`
captures them faithfully.

`main.py`'s in-place `make_move`/`undo_move` pair used by the searchers is
modelled by passing the updated board to the recursive call and continuing
the iteration with the original board; this is justified by the round-trip
lemma `TTT.set_set_restore` (writing to an empty cell and then clearing it
restores the board).
-/

/-- Integers extended with `-inf` and `+inf`, modelling the Python values
`-float('inf')`, `float('inf')` and the `int` scores of the program. -/
inductive XInt : Type where
  | negInf : XInt
  | fin : Int → XInt
  | posInf : XInt
deriving DecidableEq, Repr

namespace XInt

/-- Boolean `<=` on `XInt`, mirroring Python comparison of scores with the
infinite sentinels. -/
def ble : XInt → XInt → Bool
  | negInf, _ => true
  | fin m, fin n => m ≤ n
  | fin _, posInf => true
  | posInf, posInf => true
  | _, _ => false

instance : LinearOrder XInt where
  le a b := ble a b = true
  lt a b := ¬ (ble b a = true)
  le_refl a := by cases a <;> simp [ble]
  le_trans a b c := by cases a <;> cases b <;> cases c <;> simp [ble] <;> omega
  le_antisymm a b := by cases a <;> cases b <;> simp [ble] <;> omega
  le_total a b := by cases a <;> cases b <;> simp [ble] <;> omega
  lt_iff_le_not_le a b := by cases a <;> cases b <;> simp [ble] <;> omega
  decidableLE a b := inferInstanceAs (Decidable (ble a b = true))
  decidableEq := inferInstance

instance instDecLE : ∀ a b : XInt, Decidable (a ≤ b) := fun a b =>
  inferInstanceAs (Decidable (ble a b = true))

instance instDecLT : ∀ a b : XInt, Decidable (a < b) := fun a b =>
  inferInstanceAs (Decidable (¬ ble b a = true))

end XInt

namespace TTT

/-- The eight winning lines, `TicTacToe.WIN_LINES` in both source files. -/
def winLines : List (Nat × Nat × Nat) :=
  [(0,1,2), (3,4,5), (6,7,8),
   (0,3,6), (1,4,7), (2,5,8),
   (0,4,8), (2,4,6)]

/-- Cell access `self.board[i]` (boards have length 9 in the program;
out-of-range access is totalised with the empty cell). -/
def cell (b : List Char) (i : Nat) : Char := b.getD i ' '

/-- Python `available_moves`: indices of empty cells, in ascending order. -/
def availableMoves (b : List Char) : List Nat :=
  (List.range b.length).filter (fun i => cell b i = ' ')

/-- Python `is_winner(player)`: some winning line fully occupied by `player`. -/
def isWinner (b : List Char) (player : Char) : Bool :=
  winLines.any (fun l =>
    cell b l.1 = player ∧ cell b l.2.1 = player ∧ cell b l.2.2 = player)

/-- Python `is_draw()`: no empty cell and neither player has won. -/
def isDraw (b : List Char) : Bool :=
  !(b.contains ' ') && !(isWinner b 'X') && !(isWinner b 'O')

/-- Python `is_terminal()` (`game_over()` in `monteCarlo.py`). -/
def isTerminal (b : List Char) : Bool :=
  isWinner b 'X' || isWinner b 'O' || isDraw b

/-- Python `utility()`: +1 if X has won, -1 if O has won, else 0. -/
def utility (b : List Char) : Int :=
  if isWinner b 'X' then 1 else if isWinner b 'O' then -1 else 0

/-- Python `heuristic()`: for each line with no `O`, add its `X`-count; for each
line with no `X`, subtract its `O`-count. -/
def heuristic (b : List Char) : Int :=
  winLines.foldl (fun score l =>
    let line := [cell b l.1, cell b l.2.1, cell b l.2.2]
    let s1 := if !(line.contains 'O') then score + (line.count 'X' : Int) else score
    if !(line.contains 'X') then s1 - (line.count 'O' : Int) else s1) 0

/-- Number of empty cells of a board. -/
def countEmpty (b : List Char) : Nat := b.count ' '

/-- Python `self.board[move] = p` as performed by `make_move` during search. -/
def place (b : List Char) (mv : Nat) (p : Char) : List Char := b.set mv p

/-- The maximizing loop of `_minimax`: try each move, keep the strictly
better value (ties keep the first move encountered). -/
def pmaxLoop (f : Nat → XInt) : List Nat → XInt × Int → XInt × Int
  | [], acc => acc
  | mv :: rest, acc =>
    let val := f mv
    pmaxLoop f rest (if acc.1 < val then (val, (mv : Int)) else acc)

/-- The minimizing loop of `_minimax`. -/
def pminLoop (f : Nat → XInt) : List Nat → XInt × Int → XInt × Int
  | [], acc => acc
  | mv :: rest, acc =>
    let val := f mv
    pminLoop f rest (if val < acc.1 then (val, (mv : Int)) else acc)

/-- Python `TicTacToe._minimax(depth, maximizing)`, returning `(value, move)`;
the move sentinel "no move" is `-1`.  The in-place `make_move`/`undo_move`
pair around each recursive call is modelled by handing `place b mv _` to
the recursion and iterating on the unchanged `b`. -/
def minimax : Nat → List Char → Bool → XInt × Int
  | 0, b, _ =>
    (XInt.fin (if isTerminal b then utility b else heuristic b), -1)
  | d + 1, b, maximizing =>
    if isTerminal b then (XInt.fin (utility b), -1)
    else if maximizing then
      pmaxLoop (fun mv => (minimax d (place b mv 'X') false).1)
        (availableMoves b) (XInt.negInf, -1)
    else
      pminLoop (fun mv => (minimax d (place b mv 'O') true).1)
        (availableMoves b) (XInt.posInf, -1)

/-- The maximizing loop of `_minimax_ab`: the accumulator also threads
`alpha`; after each move `alpha = max(alpha, best_val)` and the loop breaks
as soon as `beta <= alpha`. -/
def abMaxLoop (f : XInt → Nat → XInt) (beta : XInt) :
    List Nat → XInt × Int → XInt → XInt × Int
  | [], acc, _ => acc
  | mv :: rest, acc, alpha =>
    let val := f alpha mv
    let acc' := if acc.1 < val then (val, (mv : Int)) else acc
    let alpha' : XInt := max alpha acc'.1
    if beta ≤ alpha' then acc' else abMaxLoop f beta rest acc' alpha'

/-- The minimizing loop of `_minimax_ab`: threads `beta`, breaking as soon
as `beta <= alpha`. -/
def abMinLoop (f : XInt → Nat → XInt) (alpha : XInt) :
    List Nat → XInt × Int → XInt → XInt × Int
  | [], acc, _ => acc
  | mv :: rest, acc, beta =>
    let val := f beta mv
    let acc' := if val < acc.1 then (val, (mv : Int)) else acc
    let beta' : XInt := min beta acc'.1
    if beta' ≤ alpha then acc' else abMinLoop f alpha rest acc' beta'

/-- Python `TicTacToe._minimax_ab(depth, alpha, beta, maximizing)`. -/
def minimaxAB : Nat → List Char → XInt → XInt → Bool → XInt × Int
  | 0, b, _, _, _ =>
    (XInt.fin (if isTerminal b then utility b else heuristic b), -1)
  | d + 1, b, alpha, beta, maximizing =>
    if isTerminal b then (XInt.fin (utility b), -1)
    else if maximizing then
      abMaxLoop (fun a mv => (minimaxAB d (place b mv 'X') a beta false).1)
        beta (availableMoves b) (XInt.negInf, -1) alpha
    else
      abMinLoop (fun bt mv => (minimaxAB d (place b mv 'O') alpha bt true).1)
        alpha (availableMoves b) (XInt.posInf, -1) beta

/-- Fail-soft relation between an alpha-beta result `ab` (searched with
window `(alpha, beta)`) and the plain minimax result `pl` of the same
position: inside the window they agree exactly (value and move); a fail-low
result upper-bounds the true value, a fail-high result lower-bounds it. -/
def XRel (alpha beta : XInt) (ab pl : XInt × Int) : Prop :=
  (ab.1 ≤ alpha → pl.1 ≤ ab.1) ∧
  (beta ≤ ab.1 → ab.1 ≤ pl.1) ∧
  (alpha < ab.1 → ab.1 < beta → ab = pl)

end TTT

/-- Python `'O' if current_player == 'X' else 'X'` (turn flip in `monteCarlo.py`). -/
def swapPlayer (c : Char) : Char := if c = 'X' then 'O' else 'X'

/-- Python `max(moves, key=...)`: scan left to right, replacing the current
best only on a strictly greater key, so the first of several equal-key
maximal elements wins. -/
def pyMax (key : Nat → ℚ) : Nat → List Nat → Nat
  | best, [] => best
  | best, x :: xs => if key best < key x then pyMax key x xs else pyMax key best xs

namespace Main

/-- The `TicTacToe` object state of `src/main.py`: `self.board` and
`self.current_player`. -/
structure Game where
  board : List Char
  current : Char
deriving DecidableEq, Repr

/-- Python `TicTacToe.__init__`: empty board, `current_player = 'X'`. -/
def init : Game := ⟨List.replicate 9 ' ', 'X'⟩

/-- Python `TicTacToe.reset`. -/
def reset (_ : Game) : Game := ⟨List.replicate 9 ' ', 'X'⟩

/-- Python `make_move(move, player=None)`: writes `player or self.current_player`
at index `move`; `current_player` is not modified. -/
def makeMove (g : Game) (mv : Nat) (player : Option Char) : Game :=
  ⟨g.board.set mv (player.getD g.current), g.current⟩

/-- Python `undo_move(move)`: clears the cell; `current_player` not modified. -/
def undoMove (g : Game) (mv : Nat) : Game :=
  ⟨g.board.set mv ' ', g.current⟩

/-- Python `clone()`: copies board and turn indicator. -/
def clone (g : Game) : Game := ⟨g.board, g.current⟩

/-- Python `get_best_plain(depth)`: the minimax move, or a random available move
when the search returned the `-1` sentinel.  `random.choice` is modelled by
an oracle index `r` reduced modulo the list length. -/
def getBestPlain (d : Nat) (g : Game) (r : Nat) : Int :=
  let mv := (TTT.minimax d g.board true).2
  if mv ≠ -1 then mv
  else
    let ms := TTT.availableMoves g.board
    ((ms.getD (r % ms.length) 0 : Nat) : Int)

/-- The `while not game.is_terminal()` loop of `simulate_random_game`:
each iteration applies a `random.choice` move (oracle `rng` indexed by the
running counter `c`) via `make_move` with no explicit player.  The fuel
argument is instantiated with `countEmpty`, an upper bound on the number of
iterations since every placement fills an empty cell. -/
def simGo (rng : Nat → Nat) : Nat → Nat → Game → Game × Nat
  | 0, c, g => (g, c)
  | f + 1, c, g =>
    if TTT.isTerminal g.board then (g, c)
    else
      let ms := TTT.availableMoves g.board
      let mv := ms.getD (rng c % ms.length) 0
      simGo rng f (c + 1) (makeMove g mv none)

/-- Python `simulate_random_game(game)`: play random moves to termination and
score the final position; also returns the advanced oracle counter. -/
def simulateRandomGame (rng : Nat → Nat) (c : Nat) (g : Game) : Int × Nat :=
  let r := simGo rng (TTT.countEmpty g.board) c g
  (if TTT.isWinner r.1.board 'X' then 1
   else if TTT.isWinner r.1.board 'O' then -1 else 0, r.2)

/-- The sequence of symbols placed by the rollout loop of
`simulate_random_game`, in order. -/
def rolloutTrace (rng : Nat → Nat) : Nat → Nat → Game → List Char
  | 0, _, _ => []
  | f + 1, c, g =>
    if TTT.isTerminal g.board then []
    else
      let ms := TTT.availableMoves g.board
      let mv := ms.getD (rng c % ms.length) 0
      g.current :: rolloutTrace rng f (c + 1) (makeMove g mv none)

/-- The inner `for _ in range(simulations)` loop of `mcts`: accumulates
`wins += result` and `plays += 1` over fresh clones. -/
def runSims (rng : Nat → Nat) (g : Game) (mv : Nat) :
    Nat → Nat → Int → Nat → (Int × Nat) × Nat
  | 0, c, w, p => ((w, p), c)
  | n + 1, c, w, p =>
    let sim := makeMove (clone g) mv none
    let rc := simulateRandomGame rng c sim
    runSims rng g mv n rc.2 (w + rc.1) (p + 1)

/-- The outer `for mv in moves` loop of `mcts`, building the `stats` dict
as an association list in move order. -/
def statsFor (rng : Nat → Nat) (g : Game) (sims : Nat) :
    List Nat → Nat → List (Nat × Int × Nat) × Nat
  | [], c => ([], c)
  | mv :: rest, c =>
    let rw := runSims rng g mv sims c 0 0
    let tl := statsFor rng g sims rest rw.2
    ((mv, rw.1.1, rw.1.2) :: tl.1, tl.2)

/-- The selection key `stats[m]['wins'] / stats[m]['plays']` (exact
rational division). -/
def statKey (stats : List (Nat × Int × Nat)) (m : Nat) : ℚ :=
  (((stats.lookup m).getD (0, 0)).1 : ℚ) / (((stats.lookup m).getD (0, 0)).2 : ℚ)

/-- Python `mcts(game, simulations)` of `src/main.py`. -/
def mcts (rng : Nat → Nat) (g : Game) (sims : Nat) : Nat :=
  let moves := TTT.availableMoves g.board
  let stats := (statsFor rng g sims moves 0).1
  match moves with
  | [] => 0
  | m :: ms => pyMax (statKey stats) m ms

end Main

namespace MC

/-- The `TicTacToe` object state of `monteCarlo.py`. -/
structure Game where
  board : List Char
  current : Char
deriving DecidableEq, Repr

/-- Python `TicTacToe.__init__` of `monteCarlo.py`. -/
def init : Game := ⟨List.replicate 9 ' ', 'X'⟩

/-- Python `make_move(move)`: places `current_player` and flips the turn. -/
def makeMove (g : Game) (mv : Nat) : Game :=
  ⟨g.board.set mv g.current, swapPlayer g.current⟩

/-- Python `undo_move(move)`: clears the cell and flips the turn back. -/
def undoMove (g : Game) (mv : Nat) : Game :=
  ⟨g.board.set mv ' ', swapPlayer g.current⟩

/-- Python `clone()`. -/
def clone (g : Game) : Game := ⟨g.board, g.current⟩

/-- The `while not game.game_over()` loop of `simulate_random_game` in
`monteCarlo.py` (`game_over` is the same predicate as `is_terminal`). -/
def simGo (rng : Nat → Nat) : Nat → Nat → Game → Game × Nat
  | 0, c, g => (g, c)
  | f + 1, c, g =>
    if TTT.isTerminal g.board then (g, c)
    else
      let ms := TTT.availableMoves g.board
      let mv := ms.getD (rng c % ms.length) 0
      simGo rng f (c + 1) (makeMove g mv)

/-- Python `simulate_random_game(game)` of `monteCarlo.py`. -/
def simulateRandomGame (rng : Nat → Nat) (c : Nat) (g : Game) : Int × Nat :=
  let r := simGo rng (TTT.countEmpty g.board) c g
  (if TTT.isWinner r.1.board 'X' then 1
   else if TTT.isWinner r.1.board 'O' then -1 else 0, r.2)

/-- The sequence of symbols placed by the rollout loop, in order. -/
def rolloutTrace (rng : Nat → Nat) : Nat → Nat → Game → List Char
  | 0, _, _ => []
  | f + 1, c, g =>
    if TTT.isTerminal g.board then []
    else
      let ms := TTT.availableMoves g.board
      let mv := ms.getD (rng c % ms.length) 0
      g.current :: rolloutTrace rng f (c + 1) (makeMove g mv)

/-- The inner simulations loop of `mcts` in `monteCarlo.py`. -/
def runSims (rng : Nat → Nat) (g : Game) (mv : Nat) :
    Nat → Nat → Int → Nat → (Int × Nat) × Nat
  | 0, c, w, p => ((w, p), c)
  | n + 1, c, w, p =>
    let sim := makeMove (clone g) mv
    let rc := simulateRandomGame rng c sim
    runSims rng g mv n rc.2 (w + rc.1) (p + 1)

/-- The outer move loop of `mcts` in `monteCarlo.py`. -/
def statsFor (rng : Nat → Nat) (g : Game) (sims : Nat) :
    List Nat → Nat → List (Nat × Int × Nat) × Nat
  | [], c => ([], c)
  | mv :: rest, c =>
    let rw := runSims rng g mv sims c 0 0
    let tl := statsFor rng g sims rest rw.2
    ((mv, rw.1.1, rw.1.2) :: tl.1, tl.2)

/-- Python `move_stats[m]['wins'] / move_stats[m]['plays']`. -/
def statKey (stats : List (Nat × Int × Nat)) (m : Nat) : ℚ :=
  (((stats.lookup m).getD (0, 0)).1 : ℚ) / (((stats.lookup m).getD (0, 0)).2 : ℚ)

/-- Python `mcts(game, simulations)` of `monteCarlo.py`. -/
def mcts (rng : Nat → Nat) (g : Game) (sims : Nat) : Nat :=
  let moves := TTT.availableMoves g.board
  let stats := (statsFor rng g sims moves 0).1
  match moves with
  | [] => 0
  | m :: ms => pyMax (statKey stats) m ms

end MC

/-- A list of symbols alternates starting from `p`: each element equals the
expected mover and the expectation flips at every step. -/
def altFrom : Char → List Char → Prop
  | _, [] => True
  | p, s :: rest => s = p ∧ altFrom (swapPlayer p) rest

/-- All symbols in the list are `'X'`. -/
def allX (l : List Char) : Bool := l.all (fun s => s = 'X')

/-- The selection contract of `mcts` in `src/main.py`: the returned move is
an available move, every available move's stats carry play count `sims`,
the returned move's `wins/plays` key is maximal, and every move listed
before it has a strictly smaller key. -/
def Main.selSpec (rng : Nat → Nat) (g : Main.Game) (sims : Nat) : Prop :=
  Main.mcts rng g sims ∈ TTT.availableMoves g.board ∧
  (∀ mv ∈ TTT.availableMoves g.board,
    ∃ w, ((Main.statsFor rng g sims (TTT.availableMoves g.board) 0).1).lookup mv
      = some (w, sims)) ∧
  (∀ mv ∈ TTT.availableMoves g.board,
    Main.statKey ((Main.statsFor rng g sims (TTT.availableMoves g.board) 0).1) mv ≤
    Main.statKey ((Main.statsFor rng g sims (TTT.availableMoves g.board) 0).1)
      (Main.mcts rng g sims)) ∧
  ∃ l1 l2, TTT.availableMoves g.board = l1 ++ Main.mcts rng g sims :: l2 ∧
    ∀ mv ∈ l1,
      Main.statKey ((Main.statsFor rng g sims (TTT.availableMoves g.board) 0).1) mv <
      Main.statKey ((Main.statsFor rng g sims (TTT.availableMoves g.board) 0).1)
        (Main.mcts rng g sims)

/-- The selection contract of `mcts` in `monteCarlo.py`. -/
def MC.selSpec (rng : Nat → Nat) (g : MC.Game) (sims : Nat) : Prop :=
  MC.mcts rng g sims ∈ TTT.availableMoves g.board ∧
  (∀ mv ∈ TTT.availableMoves g.board,
    ∃ w, ((MC.statsFor rng g sims (TTT.availableMoves g.board) 0).1).lookup mv
      = some (w, sims)) ∧
  (∀ mv ∈ TTT.availableMoves g.board,
    MC.statKey ((MC.statsFor rng g sims (TTT.availableMoves g.board) 0).1) mv ≤
    MC.statKey ((MC.statsFor rng g sims (TTT.availableMoves g.board) 0).1)
      (MC.mcts rng g sims)) ∧
  ∃ l1 l2, TTT.availableMoves g.board = l1 ++ MC.mcts rng g sims :: l2 ∧
    ∀ mv ∈ l1,
      MC.statKey ((MC.statsFor rng g sims (TTT.availableMoves g.board) 0).1) mv <
      MC.statKey ((MC.statsFor rng g sims (TTT.availableMoves g.board) 0).1)
        (MC.mcts rng g sims)

/-- An interior maximizing minimax node returns the value of one of its
available moves together with that move, and this value bounds every
child's value from above. -/
def TTT.maxNodeSpec (d : Nat) (b : List Char) : Prop :=
  ∃ mv ∈ TTT.availableMoves b,
    TTT.minimax (d + 1) b true
      = ((TTT.minimax d (TTT.place b mv 'X') false).1, (mv : Int)) ∧
    ∀ x ∈ TTT.availableMoves b,
      (TTT.minimax d (TTT.place b x 'X') false).1 ≤ (TTT.minimax (d + 1) b true).1

/-- Dual of `maxNodeSpec` for minimizing nodes. -/
def TTT.minNodeSpec (d : Nat) (b : List Char) : Prop :=
  ∃ mv ∈ TTT.availableMoves b,
    TTT.minimax (d + 1) b false
      = ((TTT.minimax d (TTT.place b mv 'O') true).1, (mv : Int)) ∧
    ∀ x ∈ TTT.availableMoves b,
      (TTT.minimax (d + 1) b false).1 ≤ (TTT.minimax d (TTT.place b x 'O') true).1

/-- The random fallback of `get_best_plain` returns an available move. -/
def Main.fallbackSpec (d : Nat) (g : Main.Game) (r : Nat) : Prop :=
  ∃ mv ∈ TTT.availableMoves g.board, Main.getBestPlain d g r = (mv : Int)

/-- Board of the concrete scenario in the spec: `[X,X,_, O,O,_, _,_,_]`. -/
def c4Board : List Char := ['X', 'X', ' ', 'O', 'O', ' ', ' ', ' ', ' ']

/-- A terminal board (X has won the top row) that still has empty cells. -/
def wonBoard : List Char := ['X', 'X', 'X', 'O', 'O', ' ', ' ', ' ', ' ']

/-- A terminal board where O has won the top row. -/
def oWinBoard : List Char := ['O', 'O', 'O', 'X', 'X', ' ', ' ', ' ', ' ']

/-- A non-terminal board with a single empty cell (index 8). -/
def oneMoveBoard : List Char := ['X', 'O', 'X', 'X', 'O', 'O', 'O', 'X', ' ']

/-- A non-terminal board with one X in the corner. -/
def xCornerBoard : List Char := ['X', ' ', ' ', ' ', ' ', ' ', ' ', ' ', ' ']

namespace XInt

theorem le_def {a b : XInt} : a ≤ b ↔ ble a b = true := Iff.rfl

@[simp] theorem negInf_le (a : XInt) : negInf ≤ a := by
  cases a <;> simp [le_def, ble]

@[simp] theorem le_posInf (a : XInt) : a ≤ posInf := by
  cases a <;> simp [le_def, ble]

@[simp] theorem fin_le_fin {m n : Int} : fin m ≤ fin n ↔ m ≤ n := by
  simp [le_def, ble]

@[simp] theorem fin_lt_fin {m n : Int} : fin m < fin n ↔ m < n := by
  constructor
  · intro h
    have := not_le.mpr h
    simp [le_def, ble] at this
    omega
  · intro h
    refine lt_of_le_of_ne (fin_le_fin.mpr (le_of_lt h)) ?h
    intro hc
    cases hc
    omega

@[simp] theorem negInf_lt_fin (n : Int) : negInf < fin n := by
  refine not_le.mp ?h
  simp [le_def, ble]

@[simp] theorem fin_lt_posInf (n : Int) : fin n < posInf := by
  refine not_le.mp ?h
  simp [le_def, ble]

@[simp] theorem negInf_lt_posInf : negInf < posInf := by
  refine not_le.mp ?h
  simp [le_def, ble]

@[simp] theorem le_negInf_iff {a : XInt} : a ≤ negInf ↔ a = negInf := by
  cases a <;> simp [le_def, ble]

@[simp] theorem posInf_le_iff {a : XInt} : posInf ≤ a ↔ a = posInf := by
  cases a <;> simp [le_def, ble]

theorem ne_negInf_of_lt {a b : XInt} (h : a < b) : b ≠ negInf := by
  intro hb
  subst hb
  exact absurd (negInf_le a) (not_le.mpr h)

theorem ne_posInf_of_lt {a b : XInt} (h : a < b) : a ≠ posInf := by
  intro ha
  subst ha
  exact absurd (le_posInf b) (not_le.mpr h)

end XInt

namespace TTT

theorem XRel_of_eq {alpha beta : XInt} {ab pl : XInt × Int} (h : ab = pl) :
    XRel alpha beta ab pl := by
  subst h
  exact ⟨fun _ => le_refl _, fun _ => le_refl _, fun _ _ => rfl⟩

/-- The plain maximizing loop never decreases the accumulated best value. -/
theorem pmaxLoop_ge_acc (f : Nat → XInt) :
    ∀ (ms : List Nat) (acc : XInt × Int), acc.1 ≤ (pmaxLoop f ms acc).1 := by
  intro ms
  induction ms with
  | nil => intro acc; exact le_refl _
  | cons mv rest ih =>
    intro acc
    simp only [pmaxLoop]
    by_cases hup : acc.1 < f mv
    · simp only [if_pos hup]
      exact le_trans (le_of_lt hup) (ih (f mv, (mv : Int)))
    · simp only [if_neg hup]
      exact ih acc

/-- The plain minimizing loop never increases the accumulated best value. -/
theorem pminLoop_le_acc (f : Nat → XInt) :
    ∀ (ms : List Nat) (acc : XInt × Int), (pminLoop f ms acc).1 ≤ acc.1 := by
  intro ms
  induction ms with
  | nil => intro acc; exact le_refl _
  | cons mv rest ih =>
    intro acc
    simp only [pminLoop]
    by_cases hup : f mv < acc.1
    · simp only [if_pos hup]
      exact le_trans (ih (f mv, (mv : Int))) (le_of_lt hup)
    · simp only [if_neg hup]
      exact ih acc

/-- Knuth-Moore style invariant proof for the maximizing alpha-beta loop
against the plain maximizing loop.  `fab a mv` is the alpha-beta value of
child `mv` searched with window `(a, beta)`; `fp mv` its plain value. -/
theorem abMaxLoop_spec (fab : XInt → Nat → XInt) (fp : Nat → XInt)
    (alpha0 beta : XInt)
    (hf : ∀ a mv, alpha0 ≤ a → a < beta →
      ((fab a mv ≤ a → fp mv ≤ fab a mv) ∧
       (beta ≤ fab a mv → fab a mv ≤ fp mv) ∧
       (a < fab a mv → fab a mv < beta → fab a mv = fp mv))) :
    ∀ (ms : List Nat) (Bv Tv : XInt) (Bm Tm : Int),
      max alpha0 Bv < beta →
      ((Bv ≤ alpha0 ∧ Tv ≤ Bv) ∨ (alpha0 < Bv ∧ Bv = Tv ∧ Bm = Tm)) →
      XRel alpha0 beta (abMaxLoop fab beta ms (Bv, Bm) (max alpha0 Bv))
        (pmaxLoop fp ms (Tv, Tm)) := by
  intro ms
  induction ms with
  | nil =>
    intro Bv Tv Bm Tm hab hinv
    have hBb : Bv < beta := lt_of_le_of_lt (le_max_right alpha0 Bv) hab
    refine ⟨?l, ?h, ?e⟩
    · intro hle
      rcases hinv with ⟨_, hTle⟩ | ⟨hgt, _, _⟩
      · exact hTle
      · exact absurd hle (not_le.mpr hgt)
    · intro hge
      exact absurd hge (not_le.mpr hBb)
    · intro hgt _
      rcases hinv with ⟨hBle, _⟩ | ⟨_, hveq, hmeq⟩
      · exact absurd hgt (not_lt.mpr hBle)
      · simp only [abMaxLoop, pmaxLoop]
        rw [hveq, hmeq]
  | cons mv rest ih =>
    intro Bv Tv Bm Tm hab hinv
    have ha0 : alpha0 ≤ max alpha0 Bv := le_max_left _ _
    have hBa : Bv ≤ max alpha0 Bv := le_max_right _ _
    obtain ⟨h1, h2, h3⟩ := hf (max alpha0 Bv) mv ha0 hab
    have hTB : Tv ≤ Bv := by
      rcases hinv with ⟨_, hTle⟩ | ⟨_, hveq, _⟩
      · exact hTle
      · exact le_of_eq hveq.symm
    simp only [abMaxLoop, pmaxLoop]
    generalize hvdef : fab (max alpha0 Bv) mv = v
    generalize htdef : fp mv = t
    rw [hvdef] at h1 h3
    rw [hvdef] at h2
    rw [htdef] at h1 h2 h3
    by_cases hup : Bv < v
    · -- alpha-beta updates its best to the new child value
      simp only [if_pos hup]
      rcases le_or_lt v (max alpha0 Bv) with hva | hva
      · -- new value at most current alpha: only possible in the low phase
        rcases hinv with ⟨hBle, hTle⟩ | ⟨hgt, _, _⟩
        · have haeq : max alpha0 Bv = alpha0 := max_eq_left hBle
          have hvle : v ≤ alpha0 := le_trans hva (le_of_eq haeq)
          have hab0 : alpha0 < beta := lt_of_le_of_lt ha0 hab
          have hmx : max (max alpha0 Bv) v = alpha0 := by
            rw [haeq]
            exact max_eq_left hvle
          have hnb : ¬ beta ≤ max (max alpha0 Bv) v := by
            rw [hmx]
            exact not_le.mpr hab0
          simp only [if_neg hnb]
          have hmx2 : max (max alpha0 Bv) v = max alpha0 v := by
            rw [hmx, max_eq_left hvle]
          rw [hmx2]
          have ht : t ≤ v := h1 hva
          by_cases hpu : Tv < t
          · simp only [if_pos hpu]
            refine ih v t mv mv ?hbA ?hiA
            · rw [max_eq_left hvle]
              exact hab0
            · exact Or.inl ⟨hvle, ht⟩
          · simp only [if_neg hpu]
            refine ih v Tv mv Tm ?hbB ?hiB
            · rw [max_eq_left hvle]
              exact hab0
            · exact Or.inl ⟨hvle, le_trans hTB (le_of_lt hup)⟩
        · -- exact phase: alpha = Bv, so an update contradicts hva
          have haeq : max alpha0 Bv = Bv := max_eq_right (le_of_lt hgt)
          have hvB : v ≤ Bv := le_trans hva (le_of_eq haeq)
          exact absurd hup (not_lt.mpr hvB)
      · rcases lt_or_le v beta with hvb | hvb
        · -- window case: exact child value, both sides update identically
          have hveq : v = t := h3 hva hvb
          have hav : alpha0 < v := lt_of_le_of_lt ha0 hva
          have hmx : max (max alpha0 Bv) v = v := max_eq_right (le_of_lt hva)
          have hnb : ¬ beta ≤ max (max alpha0 Bv) v := by
            rw [hmx]
            exact not_le.mpr hvb
          simp only [if_neg hnb]
          have hpu : Tv < t := by
            rw [← hveq]
            exact lt_of_le_of_lt (le_trans hTB hBa) hva
          simp only [if_pos hpu]
          have hmx2 : max (max alpha0 Bv) v = max alpha0 v := by
            rw [hmx, max_eq_right (le_of_lt hav)]
          rw [hmx2]
          refine ih v t mv mv ?hbC ?hiC
          · rw [max_eq_right (le_of_lt hav)]
            exact hvb
          · exact Or.inr ⟨hav, hveq, rfl⟩
        · -- fail high: the loop breaks immediately after this update
          have hbk : beta ≤ max (max alpha0 Bv) v :=
            le_trans hvb (le_max_right _ _)
          simp only [if_pos hbk]
          have hpu : Tv < t :=
            lt_of_le_of_lt (le_trans hTB hBa)
              (lt_of_lt_of_le hab (le_trans hvb (h2 hvb)))
          simp only [if_pos hpu]
          refine ⟨?bl, ?bh, ?be⟩
          · intro hle
            exact absurd (le_trans hvb hle) (not_le.mpr (lt_of_le_of_lt ha0 hab))
          · intro _
            exact le_trans (h2 hvb) (pmaxLoop_ge_acc fp rest (t, (mv : Int)))
          · intro _ hlt
            exact absurd hlt (not_lt.mpr hvb)
    · -- no update: child value at most the current best
      simp only [if_neg hup]
      have hvB : v ≤ Bv := not_lt.mp hup
      have hmx : max (max alpha0 Bv) Bv = max alpha0 Bv := by
        rw [max_assoc, max_self]
      have hnb : ¬ beta ≤ max (max alpha0 Bv) Bv := by
        rw [hmx]
        exact not_le.mpr hab
      simp only [if_neg hnb]
      rw [hmx]
      have ht : t ≤ v := h1 (le_trans hvB hBa)
      rcases hinv with ⟨hBle, hTle⟩ | ⟨hgt, hveq, hmeq⟩
      · by_cases hpu : Tv < t
        · simp only [if_pos hpu]
          exact ih Bv t Bm mv hab (Or.inl ⟨hBle, le_trans ht hvB⟩)
        · simp only [if_neg hpu]
          exact ih Bv Tv Bm Tm hab (Or.inl ⟨hBle, hTle⟩)
      · have hpu : ¬ Tv < t := by
          rw [← hveq]
          exact not_lt.mpr (le_trans ht hvB)
        simp only [if_neg hpu]
        exact ih Bv Tv Bm Tm hab (Or.inr ⟨hgt, hveq, hmeq⟩)

/-- Mirror of `abMaxLoop_spec` for the minimizing alpha-beta loop. -/
theorem abMinLoop_spec (fab : XInt → Nat → XInt) (fp : Nat → XInt)
    (alpha beta0 : XInt)
    (hf : ∀ bt mv, bt ≤ beta0 → alpha < bt →
      ((fab bt mv ≤ alpha → fp mv ≤ fab bt mv) ∧
       (bt ≤ fab bt mv → fab bt mv ≤ fp mv) ∧
       (alpha < fab bt mv → fab bt mv < bt → fab bt mv = fp mv))) :
    ∀ (ms : List Nat) (Bv Tv : XInt) (Bm Tm : Int),
      alpha < min beta0 Bv →
      ((beta0 ≤ Bv ∧ Bv ≤ Tv) ∨ (Bv < beta0 ∧ Bv = Tv ∧ Bm = Tm)) →
      XRel alpha beta0 (abMinLoop fab alpha ms (Bv, Bm) (min beta0 Bv))
        (pminLoop fp ms (Tv, Tm)) := by
  intro ms
  induction ms with
  | nil =>
    intro Bv Tv Bm Tm hab hinv
    have hBb : alpha < Bv := lt_of_lt_of_le hab (min_le_right beta0 Bv)
    refine ⟨?l, ?h, ?e⟩
    · intro hle
      exact absurd hle (not_le.mpr hBb)
    · intro hge
      rcases hinv with ⟨_, hTge⟩ | ⟨hlt, _, _⟩
      · exact hTge
      · exact absurd hge (not_le.mpr hlt)
    · intro _ hlt
      rcases hinv with ⟨hBge, _⟩ | ⟨_, hveq, hmeq⟩
      · exact absurd hlt (not_lt.mpr hBge)
      · simp only [abMinLoop, pminLoop]
        rw [hveq, hmeq]
  | cons mv rest ih =>
    intro Bv Tv Bm Tm hab hinv
    have hb0 : min beta0 Bv ≤ beta0 := min_le_left _ _
    have hBb : min beta0 Bv ≤ Bv := min_le_right _ _
    obtain ⟨h1, h2, h3⟩ := hf (min beta0 Bv) mv hb0 hab
    have hTB : Bv ≤ Tv := by
      rcases hinv with ⟨_, hTge⟩ | ⟨_, hveq, _⟩
      · exact hTge
      · exact le_of_eq hveq
    simp only [abMinLoop, pminLoop]
    generalize hvdef : fab (min beta0 Bv) mv = v
    generalize htdef : fp mv = t
    rw [hvdef] at h1 h3
    rw [hvdef] at h2
    rw [htdef] at h1 h2 h3
    by_cases hup : v < Bv
    · -- alpha-beta updates its best to the new child value
      simp only [if_pos hup]
      rcases le_or_lt (min beta0 Bv) v with hva | hva
      · -- new value at least current beta: only possible in the high phase
        rcases hinv with ⟨hBge, hTge⟩ | ⟨hlt, _, _⟩
        · have hbeq : min beta0 Bv = beta0 := min_eq_left hBge
          have hvge : beta0 ≤ v := le_trans (le_of_eq hbeq.symm) hva
          have hab0 : alpha < beta0 := hbeq ▸ hab
          have hmn : min (min beta0 Bv) v = beta0 := by
            rw [hbeq]
            exact min_eq_left hvge
          have hnb : ¬ min (min beta0 Bv) v ≤ alpha := by
            rw [hmn]
            exact not_le.mpr hab0
          simp only [if_neg hnb]
          have hmn2 : min (min beta0 Bv) v = min beta0 v := by
            rw [hmn, min_eq_left hvge]
          rw [hmn2]
          have ht : v ≤ t := h2 hva
          by_cases hpu : t < Tv
          · simp only [if_pos hpu]
            refine ih v t mv mv ?hbA ?hiA
            · rw [min_eq_left hvge]
              exact hab0
            · exact Or.inl ⟨hvge, ht⟩
          · simp only [if_neg hpu]
            refine ih v Tv mv Tm ?hbB ?hiB
            · rw [min_eq_left hvge]
              exact hab0
            · exact Or.inl ⟨hvge, le_trans (le_of_lt hup) hTB⟩
        · -- exact phase: beta = Bv, so an update contradicts hva
          have hbeq : min beta0 Bv = Bv := min_eq_right (le_of_lt hlt)
          have hvB : Bv ≤ v := le_trans (le_of_eq hbeq.symm) hva
          exact absurd hup (not_lt.mpr hvB)
      · rcases lt_or_le alpha v with hvb | hvb
        · -- window case: exact child value, both sides update identically
          have hveq : v = t := h3 hvb hva
          have hvb0 : v < beta0 := lt_of_lt_of_le hva hb0
          have hmn : min (min beta0 Bv) v = v := min_eq_right (le_of_lt hva)
          have hnb : ¬ min (min beta0 Bv) v ≤ alpha := by
            rw [hmn]
            exact not_le.mpr hvb
          simp only [if_neg hnb]
          have hpu : t < Tv := by
            rw [← hveq]
            exact lt_of_lt_of_le hva (le_trans hBb hTB)
          simp only [if_pos hpu]
          have hmn2 : min (min beta0 Bv) v = min beta0 v := by
            rw [hmn, min_eq_right (le_of_lt hvb0)]
          rw [hmn2]
          refine ih v t mv mv ?hbC ?hiC
          · rw [min_eq_right (le_of_lt hvb0)]
            exact hvb
          · exact Or.inr ⟨hvb0, hveq, rfl⟩
        · -- fail low: the loop breaks immediately after this update
          have hbk : min (min beta0 Bv) v ≤ alpha :=
            le_trans (min_le_right _ _) hvb
          simp only [if_pos hbk]
          have hpu : t < Tv :=
            lt_of_le_of_lt (le_trans (h1 hvb) hvb)
              (lt_of_lt_of_le hab (le_trans hBb hTB))
          simp only [if_pos hpu]
          refine ⟨?bl, ?bh, ?be⟩
          · intro _
            exact le_trans (pminLoop_le_acc fp rest (t, (mv : Int))) (h1 hvb)
          · intro hge
            exact absurd (le_trans hge hvb) (not_le.mpr (lt_of_lt_of_le hab hb0))
          · intro hlt _
            exact absurd hlt (not_lt.mpr hvb)
    · -- no update: child value at least the current best
      simp only [if_neg hup]
      have hvB : Bv ≤ v := not_lt.mp hup
      have hmn : min (min beta0 Bv) Bv = min beta0 Bv := by
        rw [min_assoc, min_self]
      have hnb : ¬ min (min beta0 Bv) Bv ≤ alpha := by
        rw [hmn]
        exact not_le.mpr hab
      simp only [if_neg hnb]
      rw [hmn]
      have ht : v ≤ t := h2 (le_trans hBb hvB)
      rcases hinv with ⟨hBge, hTge⟩ | ⟨hlt, hveq, hmeq⟩
      · by_cases hpu : t < Tv
        · simp only [if_pos hpu]
          exact ih Bv t Bm mv hab (Or.inl ⟨hBge, le_trans hvB ht⟩)
        · simp only [if_neg hpu]
          exact ih Bv Tv Bm Tm hab (Or.inl ⟨hBge, hTge⟩)
      · have hpu : ¬ t < Tv := by
          rw [← hveq]
          exact not_lt.mpr (le_trans hvB ht)
        simp only [if_neg hpu]
        exact ih Bv Tv Bm Tm hab (Or.inr ⟨hlt, hveq, hmeq⟩)

/-- Knuth-Moore fail-soft theorem for this program: at any window
`alpha < beta`, the alpha-beta search result is related to the plain
minimax result by `XRel`. -/
theorem minimaxAB_rel :
    ∀ (d : Nat) (b : List Char) (alpha beta : XInt) (m : Bool),
      alpha < beta →
      XRel alpha beta (minimaxAB d b alpha beta m) (minimax d b m) := by
  intro d
  induction d with
  | zero =>
    intro b alpha beta m _
    exact XRel_of_eq rfl
  | succ d ih =>
    intro b alpha beta m hab
    by_cases hterm : isTerminal b
    · simp only [minimaxAB, minimax, if_pos hterm]
      exact XRel_of_eq rfl
    · cases m with
      | true =>
        simp only [minimaxAB, minimax, if_neg hterm, if_pos rfl]
        have h0 : max alpha XInt.negInf = alpha := max_eq_left (XInt.negInf_le alpha)
        have hres := abMaxLoop_spec
          (fun a mv => (minimaxAB d (place b mv 'X') a beta false).1)
          (fun mv => (minimax d (place b mv 'X') false).1)
          alpha beta
          (fun a mv _ hb => by
            obtain ⟨c1, c2, c3⟩ := ih (place b mv 'X') a beta false hb
            exact ⟨c1, c2, fun hx hy => congrArg Prod.fst (c3 hx hy)⟩)
          (availableMoves b) XInt.negInf XInt.negInf (-1) (-1)
          (lt_of_le_of_lt (le_of_eq h0) hab)
          (Or.inl ⟨XInt.negInf_le alpha, le_refl _⟩)
        rw [h0] at hres
        exact hres
      | false =>
        simp only [minimaxAB, minimax, if_neg hterm]
        have h0 : min beta XInt.posInf = beta := min_eq_left (XInt.le_posInf beta)
        have hres := abMinLoop_spec
          (fun bt mv => (minimaxAB d (place b mv 'O') alpha bt true).1)
          (fun mv => (minimax d (place b mv 'O') true).1)
          alpha beta
          (fun bt mv _ hb => by
            obtain ⟨c1, c2, c3⟩ := ih (place b mv 'O') alpha bt true hb
            exact ⟨c1, c2, fun hx hy => congrArg Prod.fst (c3 hx hy)⟩)
          (availableMoves b) XInt.posInf XInt.posInf (-1) (-1)
          (lt_of_lt_of_le hab (le_of_eq h0.symm))
          (Or.inl ⟨XInt.le_posInf beta, le_refl _⟩)
        rw [h0] at hres
        exact hres

/-- A non-terminal board has at least one available move. -/
theorem availableMoves_ne_nil {b : List Char} (h : isTerminal b = false) :
    availableMoves b ≠ [] := by
  have hx : isWinner b 'X' = false := by
    simp only [isTerminal, Bool.or_eq_false_iff] at h
    exact h.1.1
  have ho : isWinner b 'O' = false := by
    simp only [isTerminal, Bool.or_eq_false_iff] at h
    exact h.1.2
  have hd : isDraw b = false := by
    simp only [isTerminal, Bool.or_eq_false_iff] at h
    exact h.2
  have hcont : b.contains ' ' = true := by
    unfold isDraw at hd
    rw [hx, ho] at hd
    simpa using hd
  have hmem : ' ' ∈ b := by
    simpa [List.elem_iff] using hcont
  obtain ⟨⟨i, hi⟩, hg⟩ := List.mem_iff_get.mp hmem
  have hcell : cell b i = ' ' := by
    simp only [cell, List.getD_eq_getElem?_getD, List.getElem?_eq_getElem hi]
    simpa [List.get_eq_getElem] using hg
  intro hnil
  have : i ∈ availableMoves b := by
    simp only [availableMoves, List.mem_filter, List.mem_range]
    exact ⟨hi, by simp [hcell]⟩
  rw [hnil] at this
  cases this

/-- The plain maximizing loop yields a finite value if the children are all
finite and either the accumulator is already finite or the move list is
non-empty. -/
theorem pmaxLoop_fin (f : Nat → XInt) :
    ∀ (ms : List Nat) (acc : XInt × Int),
      (∀ mv ∈ ms, ∃ n, f mv = XInt.fin n) →
      ((∃ n, acc.1 = XInt.fin n) ∨ (acc.1 = XInt.negInf ∧ ms ≠ [])) →
      ∃ n, (pmaxLoop f ms acc).1 = XInt.fin n := by
  intro ms
  induction ms with
  | nil =>
    intro acc _ hacc
    rcases hacc with h | ⟨_, hne⟩
    · exact h
    · exact absurd rfl hne
  | cons mv rest ih =>
    intro acc hms hacc
    obtain ⟨n, hn⟩ := hms mv (List.mem_cons_self mv rest)
    simp only [pmaxLoop]
    by_cases hup : acc.1 < f mv
    · simp only [if_pos hup]
      exact ih (f mv, (mv : Int)) (fun x hx => hms x (List.mem_cons_of_mem mv hx))
        (Or.inl ⟨n, hn⟩)
    · simp only [if_neg hup]
      rcases hacc with h | ⟨hneg, _⟩
      · exact ih acc (fun x hx => hms x (List.mem_cons_of_mem mv hx)) (Or.inl h)
      · exfalso
        have : f mv ≤ acc.1 := not_lt.mp hup
        rw [hneg, XInt.le_negInf_iff, hn] at this
        cases this

/-- Mirror of `pmaxLoop_fin` for the minimizing loop. -/
theorem pminLoop_fin (f : Nat → XInt) :
    ∀ (ms : List Nat) (acc : XInt × Int),
      (∀ mv ∈ ms, ∃ n, f mv = XInt.fin n) →
      ((∃ n, acc.1 = XInt.fin n) ∨ (acc.1 = XInt.posInf ∧ ms ≠ [])) →
      ∃ n, (pminLoop f ms acc).1 = XInt.fin n := by
  intro ms
  induction ms with
  | nil =>
    intro acc _ hacc
    rcases hacc with h | ⟨_, hne⟩
    · exact h
    · exact absurd rfl hne
  | cons mv rest ih =>
    intro acc hms hacc
    obtain ⟨n, hn⟩ := hms mv (List.mem_cons_self mv rest)
    simp only [pminLoop]
    by_cases hup : f mv < acc.1
    · simp only [if_pos hup]
      exact ih (f mv, (mv : Int)) (fun x hx => hms x (List.mem_cons_of_mem mv hx))
        (Or.inl ⟨n, hn⟩)
    · simp only [if_neg hup]
      rcases hacc with h | ⟨hpos, _⟩
      · exact ih acc (fun x hx => hms x (List.mem_cons_of_mem mv hx)) (Or.inl h)
      · exfalso
        have : acc.1 ≤ f mv := not_lt.mp hup
        rw [hpos, XInt.posInf_le_iff, hn] at this
        cases this

/-- Plain minimax always returns a finite value (never an infinity). -/
theorem minimax_fin :
    ∀ (d : Nat) (b : List Char) (m : Bool),
      ∃ n, (minimax d b m).1 = XInt.fin n := by
  intro d
  induction d with
  | zero =>
    intro b m
    exact ⟨_, rfl⟩
  | succ d ih =>
    intro b m
    by_cases hterm : isTerminal b
    · simp only [minimax, if_pos hterm]
      exact ⟨_, rfl⟩
    · have hne : availableMoves b ≠ [] := by
        apply availableMoves_ne_nil
        simpa using hterm
      cases m with
      | true =>
        simp only [minimax, if_neg hterm, if_pos rfl]
        exact pmaxLoop_fin _ (availableMoves b) (XInt.negInf, -1)
          (fun mv _ => ih (place b mv 'X') false) (Or.inr ⟨rfl, hne⟩)
      | false =>
        simp only [minimax, if_neg hterm]
        exact pminLoop_fin _ (availableMoves b) (XInt.posInf, -1)
          (fun mv _ => ih (place b mv 'O') true) (Or.inr ⟨rfl, hne⟩)

/-- Alpha-beta search from the full window agrees exactly (value and move)
with plain minimax. -/
theorem minimaxAB_eq_minimax (d : Nat) (b : List Char) (m : Bool) :
    minimaxAB d b XInt.negInf XInt.posInf m = minimax d b m := by
  obtain ⟨c1, c2, c3⟩ :=
    minimaxAB_rel d b XInt.negInf XInt.posInf m XInt.negInf_lt_posInf
  obtain ⟨n, hn⟩ := minimax_fin d b m
  rcases le_or_lt (minimaxAB d b XInt.negInf XInt.posInf m).1 XInt.negInf with hle | hgt
  · exfalso
    have hpl := le_trans (c1 hle) hle
    rw [XInt.le_negInf_iff, hn] at hpl
    cases hpl
  · rcases le_or_lt XInt.posInf (minimaxAB d b XInt.negInf XInt.posInf m).1 with hge | hlt
    · exfalso
      have hpl := le_trans hge (c2 hge)
      rw [XInt.posInf_le_iff, hn] at hpl
      cases hpl
    · exact c3 hgt hlt

/-- Membership in `available_moves` characterised. -/
theorem mem_availableMoves {b : List Char} {mv : Nat} :
    mv ∈ availableMoves b ↔ mv < b.length ∧ cell b mv = ' ' := by
  simp [availableMoves, List.mem_filter, List.mem_range]

/-- Writing a non-blank symbol into an empty cell decreases the number of
empty cells by exactly one. -/
theorem count_set_empty {p : Char} (hp : p ≠ ' ') :
    ∀ (b : List Char) (i : Nat), i < b.length → cell b i = ' ' →
      (b.set i p).count ' ' + 1 = b.count ' ' := by
  intro b
  induction b with
  | nil =>
    intro i hi _
    cases hi
  | cons x xs ih =>
    intro i hi hc
    cases i with
    | zero =>
      have hx : x = ' ' := by
        simpa [cell] using hc
      subst hx
      simp [List.count_cons, hp]
    | succ i =>
      have hi' : i < xs.length := Nat.lt_of_succ_lt_succ hi
      have hc' : cell xs i = ' ' := by
        simpa [cell] using hc
      have := ih i hi' hc'
      simp only [List.set_cons_succ, List.count_cons]
      omega

/-- Value of `countEmpty` after a legal placement. -/
theorem countEmpty_place {b : List Char} {mv : Nat} {p : Char}
    (hmem : mv ∈ availableMoves b) (hp : p ≠ ' ') :
    countEmpty (place b mv p) + 1 = countEmpty b := by
  obtain ⟨hlt, hc⟩ := mem_availableMoves.mp hmem
  exact count_set_empty hp b mv hlt hc

/-- A board with no empty cell is terminal. -/
theorem isTerminal_of_countEmpty_zero {b : List Char}
    (h : countEmpty b = 0) : isTerminal b = true := by
  unfold isTerminal
  by_cases hx : isWinner b 'X' = true
  · simp [hx]
  · by_cases ho : isWinner b 'O' = true
    · simp [ho]
    · have hxf : isWinner b 'X' = false := by simpa using hx
      have hof : isWinner b 'O' = false := by simpa using ho
      have hnm : ' ' ∉ b := by
        intro hm
        have := List.count_pos_iff.mpr hm
        unfold countEmpty at h
        omega
      have hc : b.contains ' ' = false := by
        by_contra hcc
        have : b.contains ' ' = true := by
          cases hcb : b.contains ' ' with
          | true => rfl
          | false => exact absurd hcb hcc
        exact hnm (List.elem_iff.mp this)
      simp only [isDraw, hxf, hof, Bool.not_false, Bool.and_true]
      simp only [Bool.or_eq_true, Bool.not_eq_true']
      right
      exact hc

/-- The maximizing loop only depends on the values of `f` on the list. -/
theorem pmaxLoop_congr {f g : Nat → XInt} :
    ∀ (ms : List Nat), (∀ mv ∈ ms, f mv = g mv) →
      ∀ acc, pmaxLoop f ms acc = pmaxLoop g ms acc := by
  intro ms
  induction ms with
  | nil => intro _ _; rfl
  | cons mv rest ih =>
    intro h acc
    simp only [pmaxLoop, h mv (List.mem_cons_self mv rest)]
    exact ih (fun x hx => h x (List.mem_cons_of_mem mv hx)) _

/-- The minimizing loop only depends on the values of `f` on the list. -/
theorem pminLoop_congr {f g : Nat → XInt} :
    ∀ (ms : List Nat), (∀ mv ∈ ms, f mv = g mv) →
      ∀ acc, pminLoop f ms acc = pminLoop g ms acc := by
  intro ms
  induction ms with
  | nil => intro _ _; rfl
  | cons mv rest ih =>
    intro h acc
    simp only [pminLoop, h mv (List.mem_cons_self mv rest)]
    exact ih (fun x hx => h x (List.mem_cons_of_mem mv hx)) _

/-- Once the depth limit covers the number of empty cells, one more ply of
depth does not change the minimax result (the recursion always reaches a
terminal position before the cutoff). -/
theorem minimax_depth_succ :
    ∀ (d : Nat) (b : List Char) (m : Bool), countEmpty b ≤ d →
      minimax (d + 1) b m = minimax d b m := by
  intro d
  induction d with
  | zero =>
    intro b m h0
    have hterm : isTerminal b = true :=
      isTerminal_of_countEmpty_zero (Nat.le_zero.mp h0)
    simp [minimax, hterm]
  | succ d ih =>
    intro b m h
    by_cases hterm : isTerminal b
    · simp only [minimax, if_pos hterm]
    · have hrec : ∀ (mv : Nat) (p : Char), p ≠ ' ' → mv ∈ availableMoves b →
          ∀ m', minimax (d + 1) (place b mv p) m' = minimax d (place b mv p) m' := by
        intro mv p hp hmem m'
        apply ih
        have := countEmpty_place hmem hp
        omega
      cases m with
      | true =>
        simp only [minimax, if_neg hterm, if_pos rfl]
        exact pmaxLoop_congr (availableMoves b)
          (fun mv hmv => congrArg Prod.fst
            (hrec mv 'X' (by decide) hmv false)) _
      | false =>
        simp only [minimax, if_neg hterm]
        exact pminLoop_congr (availableMoves b)
          (fun mv hmv => congrArg Prod.fst
            (hrec mv 'O' (by decide) hmv true)) _

/-- Minimax is stable for all depths at least the number of empty cells. -/
theorem minimax_depth_ge :
    ∀ (k d : Nat) (b : List Char) (m : Bool), countEmpty b ≤ d →
      minimax (d + k) b m = minimax d b m := by
  intro k
  induction k with
  | zero =>
    intro d b m _
    rfl
  | succ k ih =>
    intro d b m h
    have hstep : minimax ((d + k) + 1) b m = minimax (d + k) b m :=
      minimax_depth_succ (d + k) b m (le_trans h (Nat.le_add_right d k))
    calc minimax (d + (k + 1)) b m = minimax ((d + k) + 1) b m := rfl
      _ = minimax (d + k) b m := hstep
      _ = minimax d b m := ih d b m h

end TTT

/-- Python's `max(l, key=k)` returns an element of the list such that every
element strictly before it has a strictly smaller key and every element of
the list has a key at most its key (first-seen-wins tie-break). -/
theorem pyMax_spec (key : Nat → ℚ) :
    ∀ (ms : List Nat) (m : Nat),
      ∃ l1 l2, m :: ms = l1 ++ pyMax key m ms :: l2 ∧
        (∀ x ∈ l1, key x < key (pyMax key m ms)) ∧
        (∀ x ∈ m :: ms, key x ≤ key (pyMax key m ms)) := by
  intro ms
  induction ms with
  | nil =>
    intro m
    refine ⟨[], [], rfl, ?h1, ?h2⟩
    · intro y hy
      cases hy
    · intro y hy
      rcases List.mem_singleton.mp hy with rfl
      exact le_refl _
  | cons x xs ih =>
    intro m
    simp only [pyMax]
    by_cases hlt : key m < key x
    · simp only [if_pos hlt]
      obtain ⟨l1, l2, heq, h1, h2⟩ := ih x
      refine ⟨m :: l1, l2, ?he, ?hh1, ?hh2⟩
      · rw [List.cons_append, ← heq]
      · intro y hy
        rcases List.mem_cons.mp hy with rfl | hy'
        · exact lt_of_lt_of_le hlt (h2 x (List.mem_cons_self x xs))
        · exact h1 y hy'
      · intro y hy
        rcases List.mem_cons.mp hy with rfl | hy'
        · exact le_of_lt (lt_of_lt_of_le hlt (h2 x (List.mem_cons_self x xs)))
        · exact h2 y hy'
    · simp only [if_neg hlt]
      have hxm : key x ≤ key m := not_lt.mp hlt
      obtain ⟨l1, l2, heq, h1, h2⟩ := ih m
      cases l1 with
      | nil =>
        rw [List.nil_append] at heq
        injection heq with hh tt
        refine ⟨[], x :: xs, ?_, ?_, ?_⟩
        · rw [List.nil_append, ← hh]
        · intro y hy
          cases hy
        · intro y hy
          rw [← hh]
          rcases List.mem_cons.mp hy with rfl | hy'
          · exact le_refl _
          · rcases List.mem_cons.mp hy' with rfl | hy''
            · exact hxm
            · have := h2 y (List.mem_cons_of_mem m hy'')
              rw [← hh] at this
              exact this
      | cons a l1' =>
        rw [List.cons_append] at heq
        injection heq with hh tt
        have hmlt : key m < key (pyMax key m xs) := by
          have := h1 a (List.mem_cons_self a l1')
          rw [← hh] at this
          exact this
        refine ⟨m :: x :: l1', l2, ?_, ?_, ?_⟩
        · rw [List.cons_append, List.cons_append, ← tt]
        · intro y hy
          rcases List.mem_cons.mp hy with rfl | hy'
          · exact hmlt
          · rcases List.mem_cons.mp hy' with rfl | hy''
            · exact lt_of_le_of_lt hxm hmlt
            · exact h1 y (List.mem_cons_of_mem a hy'')
        · intro y hy
          rcases List.mem_cons.mp hy with h0 | hy'
          · rw [h0]
            exact h2 m (List.mem_cons_self m xs)
          · rcases List.mem_cons.mp hy' with h0 | hy''
            · rw [h0]
              exact le_trans hxm (h2 m (List.mem_cons_self m xs))
            · exact h2 y (List.mem_cons_of_mem m hy'')

/-- Looking up a key present in an association list all of whose entries
carry play count `sims` yields a pair with play count `sims`. -/
theorem lookup_plays_eq {sims : Nat} :
    ∀ (l : List (Nat × Int × Nat)) (mv : Nat),
      (∀ e ∈ l, e.2.2 = sims) → mv ∈ l.map Prod.fst →
      ∃ w, l.lookup mv = some (w, sims) := by
  intro l
  induction l with
  | nil =>
    intro mv _ hm
    cases hm
  | cons e tl ih =>
    intro mv hall hm
    obtain ⟨k, w, p⟩ := e
    have hp : p = sims := hall (k, w, p) (List.mem_cons_self _ _)
    by_cases hk : (mv == k) = true
    · refine ⟨w, ?_⟩
      simp [List.lookup, hk, hp]
    · have hmv : mv ∈ tl.map Prod.fst := by
        have hm' : mv = k ∨ mv ∈ tl.map Prod.fst := by
          simpa using hm
        rcases hm' with rfl | h
        · exact absurd (by simp) hk
        · exact h
      have := ih mv (fun y hy => hall y (List.mem_cons_of_mem _ hy)) hmv
      simpa [List.lookup, hk] using this

/-- A modulo-reduced oracle index always selects a member of a non-empty
list (`random.choice`). -/
theorem getD_mod_mem {ms : List Nat} (h : ms ≠ []) (i : Nat) :
    ms.getD (i % ms.length) 0 ∈ ms := by
  have hlen : 0 < ms.length := List.length_pos.mpr h
  have hlt : i % ms.length < ms.length := Nat.mod_lt _ hlen
  rw [List.getD_eq_getElem _ _ hlt]
  exact List.getElem_mem hlt

theorem pmaxLoop_ub (f : Nat → XInt) :
    ∀ (ms : List Nat) (acc : XInt × Int) (x : Nat), x ∈ ms →
      f x ≤ (TTT.pmaxLoop f ms acc).1 := by
  intro ms
  induction ms with
  | nil =>
    intro acc x hx
    cases hx
  | cons mv rest ih =>
    intro acc x hx
    simp only [TTT.pmaxLoop]
    rcases List.mem_cons.mp hx with h0 | h1
    · by_cases hup : acc.1 < f mv
      · simp only [if_pos hup]
        refine le_trans ?_ (TTT.pmaxLoop_ge_acc f rest (f mv, (mv : Int)))
        rw [h0]
      · simp only [if_neg hup]
        refine le_trans ?_ (TTT.pmaxLoop_ge_acc f rest acc)
        rw [h0]
        exact not_lt.mp hup
    · exact ih _ x h1

theorem pminLoop_lb (f : Nat → XInt) :
    ∀ (ms : List Nat) (acc : XInt × Int) (x : Nat), x ∈ ms →
      (TTT.pminLoop f ms acc).1 ≤ f x := by
  intro ms
  induction ms with
  | nil =>
    intro acc x hx
    cases hx
  | cons mv rest ih =>
    intro acc x hx
    simp only [TTT.pminLoop]
    rcases List.mem_cons.mp hx with h0 | h1
    · by_cases hup : f mv < acc.1
      · simp only [if_pos hup]
        refine le_trans (TTT.pminLoop_le_acc f rest (f mv, (mv : Int))) ?_
        rw [h0]
      · simp only [if_neg hup]
        refine le_trans (TTT.pminLoop_le_acc f rest acc) ?_
        rw [h0]
        exact not_lt.mp hup
    · exact ih _ x h1

theorem pmaxLoop_shape (f : Nat → XInt) :
    ∀ (ms : List Nat) (acc : XInt × Int),
      TTT.pmaxLoop f ms acc = acc ∨
      ∃ mv ∈ ms, TTT.pmaxLoop f ms acc = (f mv, (mv : Int)) := by
  intro ms
  induction ms with
  | nil =>
    intro acc
    exact Or.inl rfl
  | cons mv rest ih =>
    intro acc
    simp only [TTT.pmaxLoop]
    by_cases hup : acc.1 < f mv
    · simp only [if_pos hup]
      rcases ih (f mv, (mv : Int)) with h | ⟨mv', hmem, h⟩
      · exact Or.inr ⟨mv, List.mem_cons_self _ _, h⟩
      · exact Or.inr ⟨mv', List.mem_cons_of_mem _ hmem, h⟩
    · simp only [if_neg hup]
      rcases ih acc with h | ⟨mv', hmem, h⟩
      · exact Or.inl h
      · exact Or.inr ⟨mv', List.mem_cons_of_mem _ hmem, h⟩

theorem pminLoop_shape (f : Nat → XInt) :
    ∀ (ms : List Nat) (acc : XInt × Int),
      TTT.pminLoop f ms acc = acc ∨
      ∃ mv ∈ ms, TTT.pminLoop f ms acc = (f mv, (mv : Int)) := by
  intro ms
  induction ms with
  | nil =>
    intro acc
    exact Or.inl rfl
  | cons mv rest ih =>
    intro acc
    simp only [TTT.pminLoop]
    by_cases hup : f mv < acc.1
    · simp only [if_pos hup]
      rcases ih (f mv, (mv : Int)) with h | ⟨mv', hmem, h⟩
      · exact Or.inr ⟨mv, List.mem_cons_self _ _, h⟩
      · exact Or.inr ⟨mv', List.mem_cons_of_mem _ hmem, h⟩
    · simp only [if_neg hup]
      rcases ih acc with h | ⟨mv', hmem, h⟩
      · exact Or.inl h
      · exact Or.inr ⟨mv', List.mem_cons_of_mem _ hmem, h⟩

theorem TTT.maxNodeSpec_holds (d : Nat) (b : List Char)
    (hterm : TTT.isTerminal b = false) : TTT.maxNodeSpec d b := by
  have hne := TTT.availableMoves_ne_nil hterm
  have hunf : TTT.minimax (d + 1) b true
      = TTT.pmaxLoop (fun mv => (TTT.minimax d (TTT.place b mv 'X') false).1)
          (TTT.availableMoves b) (XInt.negInf, -1) := by
    simp [TTT.minimax, hterm]
  rcases pmaxLoop_shape (fun mv => (TTT.minimax d (TTT.place b mv 'X') false).1)
      (TTT.availableMoves b) (XInt.negInf, -1) with h | ⟨mv, hmem, h⟩
  · exfalso
    obtain ⟨n, hn⟩ := TTT.minimax_fin (d + 1) b true
    rw [hunf, h] at hn
    cases hn
  · refine ⟨mv, hmem, ?_, ?_⟩
    · rw [hunf, h]
    · intro x hx
      rw [hunf]
      exact pmaxLoop_ub (fun mv => (TTT.minimax d (TTT.place b mv 'X') false).1)
        (TTT.availableMoves b) (XInt.negInf, -1) x hx

theorem TTT.minNodeSpec_holds (d : Nat) (b : List Char)
    (hterm : TTT.isTerminal b = false) : TTT.minNodeSpec d b := by
  have hne := TTT.availableMoves_ne_nil hterm
  have hunf : TTT.minimax (d + 1) b false
      = TTT.pminLoop (fun mv => (TTT.minimax d (TTT.place b mv 'O') true).1)
          (TTT.availableMoves b) (XInt.posInf, -1) := by
    simp [TTT.minimax, hterm]
  rcases pminLoop_shape (fun mv => (TTT.minimax d (TTT.place b mv 'O') true).1)
      (TTT.availableMoves b) (XInt.posInf, -1) with h | ⟨mv, hmem, h⟩
  · exfalso
    obtain ⟨n, hn⟩ := TTT.minimax_fin (d + 1) b false
    rw [hunf, h] at hn
    cases hn
  · refine ⟨mv, hmem, ?_, ?_⟩
    · rw [hunf, h]
    · intro x hx
      rw [hunf]
      exact pminLoop_lb (fun mv => (TTT.minimax d (TTT.place b mv 'O') true).1)
        (TTT.availableMoves b) (XInt.posInf, -1) x hx

theorem Main.fallback_holds (d : Nat) (g : Main.Game) (r : Nat)
    (hsent : (TTT.minimax d g.board true).2 = -1)
    (hne : TTT.availableMoves g.board ≠ []) : Main.fallbackSpec d g r := by
  refine ⟨(TTT.availableMoves g.board).getD (r % (TTT.availableMoves g.board).length) 0,
    getD_mod_mem hne r, ?_⟩
  simp [Main.getBestPlain, hsent]

theorem MC.rolloutTrace_alt (rng : Nat → Nat) :
    ∀ (f c : Nat) (g : MC.Game), altFrom g.current (MC.rolloutTrace rng f c g) := by
  intro f
  induction f with
  | zero =>
    intro c g
    exact trivial
  | succ f ih =>
    intro c g
    simp only [MC.rolloutTrace]
    by_cases hterm : TTT.isTerminal g.board
    · rw [if_pos hterm]
      exact trivial
    · rw [if_neg hterm]
      exact ⟨rfl, ih (c + 1) (MC.makeMove g _)⟩

theorem Main.rolloutTrace_const (rng : Nat → Nat) :
    ∀ (f c : Nat) (g : Main.Game) (s : Char),
      s ∈ Main.rolloutTrace rng f c g → s = g.current := by
  intro f
  induction f with
  | zero =>
    intro c g s hs
    simp only [Main.rolloutTrace] at hs
    cases hs
  | succ f ih =>
    intro c g s hs
    simp only [Main.rolloutTrace] at hs
    by_cases hterm : TTT.isTerminal g.board
    · rw [if_pos hterm] at hs
      cases hs
    · rw [if_neg hterm] at hs
      rcases List.mem_cons.mp hs with h0 | h1
      · exact h0
      · exact ih (c + 1) (Main.makeMove g _ none) s h1

theorem Main.simGo_current (rng : Nat → Nat) :
    ∀ (f c : Nat) (g : Main.Game),
      (Main.simGo rng f c g).1.current = g.current := by
  intro f
  induction f with
  | zero =>
    intro c g
    rfl
  | succ f ih =>
    intro c g
    simp only [Main.simGo]
    by_cases hterm : TTT.isTerminal g.board
    · rw [if_pos hterm]
    · rw [if_neg hterm]
      exact ih (c + 1) (Main.makeMove g _ none)

theorem Main.runSims_plays_main (rng : Nat → Nat) (g : Main.Game) (mv : Nat) :
    ∀ (n c : Nat) (w : Int) (p : Nat),
      ((Main.runSims rng g mv n c w p).1).2 = p + n := by
  intro n
  induction n with
  | zero =>
    intro c w p
    simp [Main.runSims]
  | succ n ih =>
    intro c w p
    simp only [Main.runSims]
    rw [ih]
    omega

theorem Main.statsFor_keys_main (rng : Nat → Nat) (g : Main.Game) (sims : Nat) :
    ∀ (ms : List Nat) (c : Nat),
      ((Main.statsFor rng g sims ms c).1).map Prod.fst = ms := by
  intro ms
  induction ms with
  | nil =>
    intro c
    rfl
  | cons mv rest ih =>
    intro c
    simp [Main.statsFor, ih]

theorem Main.statsFor_plays_main (rng : Nat → Nat) (g : Main.Game) (sims : Nat) :
    ∀ (ms : List Nat) (c : Nat),
      ∀ e ∈ (Main.statsFor rng g sims ms c).1, e.2.2 = sims := by
  intro ms
  induction ms with
  | nil =>
    intro c e he
    cases he
  | cons mv rest ih =>
    intro c e he
    simp only [Main.statsFor] at he
    rcases List.mem_cons.mp he with h0 | h1
    · rw [h0]
      simp [Main.runSims_plays_main]
    · exact ih _ e h1

theorem MC.runSims_plays_mc (rng : Nat → Nat) (g : MC.Game) (mv : Nat) :
    ∀ (n c : Nat) (w : Int) (p : Nat),
      ((MC.runSims rng g mv n c w p).1).2 = p + n := by
  intro n
  induction n with
  | zero =>
    intro c w p
    simp [MC.runSims]
  | succ n ih =>
    intro c w p
    simp only [MC.runSims]
    rw [ih]
    omega

theorem MC.statsFor_keys_mc (rng : Nat → Nat) (g : MC.Game) (sims : Nat) :
    ∀ (ms : List Nat) (c : Nat),
      ((MC.statsFor rng g sims ms c).1).map Prod.fst = ms := by
  intro ms
  induction ms with
  | nil =>
    intro c
    rfl
  | cons mv rest ih =>
    intro c
    simp [MC.statsFor, ih]

theorem MC.statsFor_plays_mc (rng : Nat → Nat) (g : MC.Game) (sims : Nat) :
    ∀ (ms : List Nat) (c : Nat),
      ∀ e ∈ (MC.statsFor rng g sims ms c).1, e.2.2 = sims := by
  intro ms
  induction ms with
  | nil =>
    intro c e he
    cases he
  | cons mv rest ih =>
    intro c e he
    simp only [MC.statsFor] at he
    rcases List.mem_cons.mp he with h0 | h1
    · rw [h0]
      simp [MC.runSims_plays_mc]
    · exact ih _ e h1

theorem Main.selSpec_holds_main (rng : Nat → Nat) (g : Main.Game) (sims : Nat)
    (hterm : TTT.isTerminal g.board = false) : Main.selSpec rng g sims := by
  have hne := TTT.availableMoves_ne_nil hterm
  unfold Main.selSpec
  cases hmv : TTT.availableMoves g.board with
  | nil => exact absurd hmv hne
  | cons m ms =>
    have hmcts : Main.mcts rng g sims
        = pyMax (Main.statKey ((Main.statsFor rng g sims (m :: ms) 0).1)) m ms := by
      unfold Main.mcts
      rw [hmv]
    rw [hmcts]
    generalize Main.statKey ((Main.statsFor rng g sims (m :: ms) 0).1) = K
    obtain ⟨l1, l2, heq, h1, h2⟩ := pyMax_spec K ms m
    refine ⟨?_, ?_, ?_, l1, l2, heq, h1⟩
    · rw [heq]
      exact List.mem_append_right _ (List.mem_cons_self _ _)
    · intro mv hmv2
      apply lookup_plays_eq
      · exact Main.statsFor_plays_main rng g sims (m :: ms) 0
      · rw [Main.statsFor_keys_main]
        exact hmv2
    · exact h2

theorem MC.selSpec_holds_mc (rng : Nat → Nat) (g : MC.Game) (sims : Nat)
    (hterm : TTT.isTerminal g.board = false) : MC.selSpec rng g sims := by
  have hne := TTT.availableMoves_ne_nil hterm
  unfold MC.selSpec
  cases hmv : TTT.availableMoves g.board with
  | nil => exact absurd hmv hne
  | cons m ms =>
    have hmcts : MC.mcts rng g sims
        = pyMax (MC.statKey ((MC.statsFor rng g sims (m :: ms) 0).1)) m ms := by
      unfold MC.mcts
      rw [hmv]
    rw [hmcts]
    generalize MC.statKey ((MC.statsFor rng g sims (m :: ms) 0).1) = K
    obtain ⟨l1, l2, heq, h1, h2⟩ := pyMax_spec K ms m
    refine ⟨?_, ?_, ?_, l1, l2, heq, h1⟩
    · rw [heq]
      exact List.mem_append_right _ (List.mem_cons_self _ _)
    · intro mv hmv2
      apply lookup_plays_eq
      · exact MC.statsFor_plays_mc rng g sims (m :: ms) 0
      · rw [MC.statsFor_keys_mc]
        exact hmv2
    · exact h2

/-- Writing to a cell and reading it back yields the written symbol. -/
theorem TTT.cell_set_self :
    ∀ (b : List Char) (mv : Nat), mv < b.length → ∀ p,
      TTT.cell (b.set mv p) mv = p := by
  intro b
  induction b with
  | nil =>
    intro mv h
    cases h
  | cons x xs ih =>
    intro mv h p
    cases mv with
    | zero => rfl
    | succ m => exact ih m (Nat.lt_of_succ_lt_succ h) p

/-- Writing to an empty cell and then clearing it restores the board. -/
theorem TTT.set_set_restore :
    ∀ (b : List Char) (mv : Nat), TTT.cell b mv = ' ' → ∀ p,
      (b.set mv p).set mv ' ' = b := by
  intro b
  induction b with
  | nil =>
    intro mv _ p
    rfl
  | cons x xs ih =>
    intro mv hc p
    cases mv with
    | zero =>
      have hx : x = ' ' := by
        simpa [TTT.cell] using hc
      rw [hx]
      rfl
    | succ m =>
      have hc' : TTT.cell xs m = ' ' := by
        simpa [TTT.cell] using hc
      simp only [List.set_cons_succ]
      rw [ih m hc' p]

/-- Claim C1: for every board state and every depth limit, the alpha-beta
searcher called with the initial window `[-inf, +inf]` returns exactly the
same value and the same chosen move as plain minimax. -/
theorem claim_C1 : ∀ (d : Nat) (b : List Char) (m : Bool),
    TTT.minimaxAB d b XInt.negInf XInt.posInf m = TTT.minimax d b m :=
  fun d b m => TTT.minimaxAB_eq_minimax d b m

/-- Claim C2 counterexample: in `main.py`, applying a move does not flip the
turn indicator — from the fresh state (X to move), after `make_move(4)` the
player to move is still `'X'`, not the opposite player `'O'`. -/
theorem claim_C2_counterexample :
    Main.init.current = 'X' ∧
    (Main.makeMove Main.init 4 none).current ≠ 'O' := by
  decide

/-- Claim C2 (amended): in `monteCarlo.py`, `make_move` flips the turn
indicator to the opposite player; in `main.py`, `make_move` and `undo_move`
leave `current_player` untouched. -/
theorem claim_C2 :
    (∀ (g : MC.Game) (mv : Nat),
      (g.current = 'X' → (MC.makeMove g mv).current = 'O') ∧
      (g.current = 'O' → (MC.makeMove g mv).current = 'X')) ∧
    (∀ (g : Main.Game) (mv : Nat) (p : Option Char),
      (Main.makeMove g mv p).current = g.current ∧
      (Main.undoMove g mv).current = g.current) := by
  constructor
  · intro g mv
    constructor
    · intro h
      show swapPlayer g.current = 'O'
      rw [h]
      decide
    · intro h
      show swapPlayer g.current = 'X'
      rw [h]
      decide
  · intro g mv p
    exact ⟨rfl, rfl⟩

/-- Claim C2 witness: the amended claim evaluated on concrete states. -/
theorem claim_C2_witness :
    (MC.makeMove ⟨List.replicate 9 ' ', 'X'⟩ 0).current = 'O' ∧
    (MC.makeMove ⟨List.replicate 9 ' ', 'O'⟩ 0).current = 'X' :=
  ⟨(claim_C2.1 ⟨List.replicate 9 ' ', 'X'⟩ 0).1 rfl,
   (claim_C2.1 ⟨List.replicate 9 ' ', 'O'⟩ 0).2 rfl⟩

/-- Claim C3: in `main.py` the rollout does NOT alternate symbols — from the
fresh game after candidate move 0, with the random stream constantly picking
the first legal move, the two symbols placed by the rollout are both `'X'`
(and the rollout scores +1 for X after only two moves).  In `monteCarlo.py`
the rollout does alternate: every trace alternates starting from the mover's
symbol. -/
theorem claim_C3 :
    Main.rolloutTrace (fun _ => 0) 8 0 (Main.makeMove Main.init 0 none)
      = ['X', 'X'] ∧
    Main.simulateRandomGame (fun _ => 0) 0 (Main.makeMove Main.init 0 none)
      = (1, 2) ∧
    (∀ (rng : Nat → Nat) (f c : Nat) (g : MC.Game),
      altFrom g.current (MC.rolloutTrace rng f c g)) :=
  ⟨by decide, by decide, MC.rolloutTrace_alt⟩

/-- Claim C4 counterexample: at depth limit 1 minimax does not return move 2
with value +1 on `[X,X,_, O,O,_, _,_,_]`; the heuristic of the position
after move 5 scores 2, which beats the immediate-win utility 1, so the
searcher returns move 5 with value 2. -/
theorem claim_C4_counterexample :
    TTT.minimax 1 c4Board true = (XInt.fin 2, 5) ∧
    TTT.minimax 1 c4Board true ≠ (XInt.fin 1, 2) := by
  decide

/-- Claim C4 (amended): on `[X,X,_, O,O,_, _,_,_]` with X to move, minimax
at every depth limit at least 2 returns move index 2 with value +1 (depth 1
is the exception shown in the counterexample). -/
theorem claim_C4 : ∀ (d : Nat), 2 ≤ d →
    TTT.minimax d c4Board true = (XInt.fin 1, 2) := by
  intro d hd
  rcases Nat.lt_or_ge d 5 with h5 | h5
  · interval_cases d
    · decide
    · decide
    · decide
  · obtain ⟨k, rfl⟩ : ∃ k, d = 5 + k := ⟨d - 5, by omega⟩
    have heq := TTT.minimax_depth_ge k 5 c4Board true (by decide)
    rw [heq]
    decide

/-- Claim C4 witness: the amended claim at depth 2. -/
theorem claim_C4_witness : TTT.minimax 2 c4Board true = (XInt.fin 1, 2) :=
  claim_C4 2 (by decide)

/-- Claim C5: applying a legal move and then retracting it restores both
implementations' state bit-for-bit (for `monteCarlo.py`, given a valid turn
indicator, which the double turn-flip restores). -/
theorem claim_C5 :
    (∀ (g : Main.Game) (mv : Nat) (p : Option Char),
      mv ∈ TTT.availableMoves g.board →
      Main.undoMove (Main.makeMove g mv p) mv = g) ∧
    (∀ (g : MC.Game) (mv : Nat), mv ∈ TTT.availableMoves g.board →
      (g.current = 'X' ∨ g.current = 'O') →
      MC.undoMove (MC.makeMove g mv) mv = g) := by
  constructor
  · intro g mv p hmem
    obtain ⟨hlt, hc⟩ := TTT.mem_availableMoves.mp hmem
    cases g with
    | mk board cur =>
      simp only [Main.makeMove, Main.undoMove]
      rw [TTT.set_set_restore board mv hc]
  · intro g mv hmem hcur
    obtain ⟨hlt, hc⟩ := TTT.mem_availableMoves.mp hmem
    cases g with
    | mk board cur =>
      simp only [MC.makeMove, MC.undoMove]
      rw [TTT.set_set_restore board mv hc]
      rcases hcur with h | h
      · rw [show cur = 'X' from h]
        simp [swapPlayer]
      · rw [show cur = 'O' from h]
        simp [swapPlayer]

/-- Claim C5 witness: round trip on concrete states. -/
theorem claim_C5_witness :
    Main.undoMove (Main.makeMove ⟨xCornerBoard, 'X'⟩ 4 (some 'O')) 4
      = ⟨xCornerBoard, 'X'⟩ ∧
    MC.undoMove (MC.makeMove ⟨xCornerBoard, 'X'⟩ 4) 4 = ⟨xCornerBoard, 'X'⟩ :=
  ⟨claim_C5.1 ⟨xCornerBoard, 'X'⟩ 4 (some 'O') (by decide),
   claim_C5.2 ⟨xCornerBoard, 'X'⟩ 4 (by decide) (Or.inl rfl)⟩

/-- Claim C6 counterexample: applying a move to an occupied cell (index 0)
silently modifies the board instead of failing and leaving it unchanged, in
both implementations. -/
theorem claim_C6_counterexample :
    (Main.makeMove ⟨wonBoard, 'X'⟩ 0 (some 'O')).board ≠ wonBoard ∧
    (MC.makeMove ⟨wonBoard, 'O'⟩ 0).board ≠ wonBoard := by
  decide

/-- Claim C6 (amended): `make_move` performs no legality check; it writes
the placed symbol into the addressed cell unconditionally, overwriting any
occupied cell, and signals no error. -/
theorem claim_C6 :
    (∀ (g : Main.Game) (mv : Nat) (p : Char), mv < g.board.length →
      TTT.cell (Main.makeMove g mv (some p)).board mv = p) ∧
    (∀ (g : MC.Game) (mv : Nat), mv < g.board.length →
      TTT.cell (MC.makeMove g mv).board mv = g.current) := by
  constructor
  · intro g mv p h
    exact TTT.cell_set_self g.board mv h p
  · intro g mv h
    exact TTT.cell_set_self g.board mv h g.current

/-- Claim C6 witness: the overwrite behaviour on a concrete occupied cell. -/
theorem claim_C6_witness :
    TTT.cell (Main.makeMove ⟨wonBoard, 'X'⟩ 0 (some 'O')).board 0 = 'O' ∧
    TTT.cell (MC.makeMove ⟨wonBoard, 'O'⟩ 0).board 0 = 'O' :=
  ⟨claim_C6.1 ⟨wonBoard, 'X'⟩ 0 'O' (by decide),
   claim_C6.2 ⟨wonBoard, 'O'⟩ 0 (by decide)⟩

/-- Claim C7: on a non-terminal state with at least one simulation per
move, both `mcts` implementations return an available move whose
`wins/plays` key is maximal, every earlier available move has a strictly
smaller key (first-seen-wins tie-break), and every move's play count equals
`simulations`. -/
theorem claim_C7 :
    (∀ (rng : Nat → Nat) (g : Main.Game) (sims : Nat),
      TTT.isTerminal g.board = false → 1 ≤ sims → Main.selSpec rng g sims) ∧
    (∀ (rng : Nat → Nat) (g : MC.Game) (sims : Nat),
      TTT.isTerminal g.board = false → 1 ≤ sims → MC.selSpec rng g sims) :=
  ⟨fun rng g sims hterm _ => Main.selSpec_holds_main rng g sims hterm,
   fun rng g sims hterm _ => MC.selSpec_holds_mc rng g sims hterm⟩

/-- Claim C7 witness: the selection contract on a concrete one-move
position with one simulation per move. -/
theorem claim_C7_witness :
    Main.selSpec (fun _ => 0) ⟨oneMoveBoard, 'X'⟩ 1 ∧
    MC.selSpec (fun _ => 0) ⟨oneMoveBoard, 'X'⟩ 1 :=
  ⟨claim_C7.1 (fun _ => 0) ⟨oneMoveBoard, 'X'⟩ 1 (by decide) (by decide),
   claim_C7.2 (fun _ => 0) ⟨oneMoveBoard, 'X'⟩ 1 (by decide) (by decide)⟩

/-- Claim C8: the minimax recursion returns `(utility, -1)` on terminal
positions, `(heuristic, -1)` at depth 0 on non-terminal positions, and on
non-terminal positions with depth at least 1 an available move achieving
the best child value for the side to move; the `-1` sentinel occurs only in
the first two cases, and the `get_best_plain` wrapper passes the minimax
move through when it is not the sentinel and otherwise substitutes a
randomly chosen available move. -/
theorem claim_C8 :
    (∀ (d : Nat) (b : List Char) (m : Bool), TTT.isTerminal b = true →
      TTT.minimax d b m = (XInt.fin (TTT.utility b), -1)) ∧
    (∀ (b : List Char) (m : Bool), TTT.isTerminal b = false →
      TTT.minimax 0 b m = (XInt.fin (TTT.heuristic b), -1)) ∧
    (∀ (d : Nat) (b : List Char), TTT.isTerminal b = false →
      TTT.maxNodeSpec d b) ∧
    (∀ (d : Nat) (b : List Char), TTT.isTerminal b = false →
      TTT.minNodeSpec d b) ∧
    (∀ (d : Nat) (b : List Char) (m : Bool), TTT.isTerminal b = false →
      1 ≤ d → (TTT.minimax d b m).2 ≠ -1) ∧
    (∀ (d : Nat) (g : Main.Game) (r : Nat),
      (TTT.minimax d g.board true).2 ≠ -1 →
      Main.getBestPlain d g r = (TTT.minimax d g.board true).2) ∧
    (∀ (d : Nat) (g : Main.Game) (r : Nat),
      (TTT.minimax d g.board true).2 = -1 →
      TTT.availableMoves g.board ≠ [] → Main.fallbackSpec d g r) := by
  refine ⟨?_, ?_, ?_, ?_, ?_, ?_, ?_⟩
  · intro d b m h
    cases d with
    | zero => simp [TTT.minimax, h]
    | succ d => simp [TTT.minimax, h]
  · intro b m h
    simp [TTT.minimax, h]
  · intro d b h
    exact TTT.maxNodeSpec_holds d b h
  · intro d b h
    exact TTT.minNodeSpec_holds d b h
  · intro d b m hterm hd
    obtain ⟨d', rfl⟩ : ∃ d', d = d' + 1 := ⟨d - 1, by omega⟩
    cases m with
    | true =>
      obtain ⟨mv, hmem, heq, _⟩ := TTT.maxNodeSpec_holds d' b hterm
      rw [heq]
      show (mv : Int) ≠ -1
      omega
    | false =>
      obtain ⟨mv, hmem, heq, _⟩ := TTT.minNodeSpec_holds d' b hterm
      rw [heq]
      show (mv : Int) ≠ -1
      omega
  · intro d g r h
    simp [Main.getBestPlain, h]
  · intro d g r hsent hne
    exact Main.fallback_holds d g r hsent hne

/-- Claim C8 witness: the node contract evaluated on concrete positions,
including the sentinel fallback of `get_best_plain` at a terminal root. -/
theorem claim_C8_witness :
    TTT.minimax 3 wonBoard true = (XInt.fin (TTT.utility wonBoard), -1) ∧
    TTT.minimax 0 c4Board true = (XInt.fin (TTT.heuristic c4Board), -1) ∧
    TTT.maxNodeSpec 1 c4Board ∧
    TTT.minNodeSpec 1 c4Board ∧
    (TTT.minimax 2 c4Board true).2 ≠ -1 ∧
    Main.getBestPlain 2 ⟨c4Board, 'X'⟩ 0 = (TTT.minimax 2 c4Board true).2 ∧
    Main.fallbackSpec 3 ⟨wonBoard, 'X'⟩ 0 :=
  ⟨claim_C8.1 3 wonBoard true (by decide),
   claim_C8.2.1 c4Board true (by decide),
   claim_C8.2.2.1 1 c4Board (by decide),
   claim_C8.2.2.2.1 1 c4Board (by decide),
   claim_C8.2.2.2.2.1 2 c4Board true (by decide) (by decide),
   claim_C8.2.2.2.2.2.1 2 ⟨c4Board, 'X'⟩ 0 (by decide),
   claim_C8.2.2.2.2.2.2 3 ⟨wonBoard, 'X'⟩ 0 (by decide) (by decide)⟩

/-- Claim C9 counterexample: on a non-terminal board (one X in a corner)
`utility()` does not fail — it returns the numeric value 0. -/
theorem claim_C9_counterexample :
    TTT.isTerminal xCornerBoard = false ∧ TTT.utility xCornerBoard = 0 := by
  decide

/-- Claim C9 (amended): `utility` is a total function: +1 whenever X has
won, -1 whenever O (and not X) has won, and 0 otherwise — in particular it
returns 0, rather than failing, on every non-terminal state. -/
theorem claim_C9 : ∀ (b : List Char),
    (TTT.isWinner b 'X' = true → TTT.utility b = 1) ∧
    (TTT.isWinner b 'X' = false → TTT.isWinner b 'O' = true →
      TTT.utility b = -1) ∧
    (TTT.isWinner b 'X' = false → TTT.isWinner b 'O' = false →
      TTT.utility b = 0) ∧
    (TTT.isTerminal b = false → TTT.utility b = 0) := by
  intro b
  refine ⟨?_, ?_, ?_, ?_⟩
  · intro h
    simp [TTT.utility, h]
  · intro hx ho
    simp [TTT.utility, hx, ho]
  · intro hx ho
    simp [TTT.utility, hx, ho]
  · intro ht
    have hxo : TTT.isWinner b 'X' = false ∧ TTT.isWinner b 'O' = false := by
      simp only [TTT.isTerminal, Bool.or_eq_false_iff] at ht
      exact ⟨ht.1.1, ht.1.2⟩
    simp [TTT.utility, hxo.1, hxo.2]

/-- Claim C9 witness: the amended utility contract on concrete boards. -/
theorem claim_C9_witness :
    TTT.utility wonBoard = 1 ∧
    TTT.utility oWinBoard = -1 ∧
    TTT.utility xCornerBoard = 0 ∧
    TTT.utility c4Board = 0 :=
  ⟨(claim_C9 wonBoard).1 (by decide),
   (claim_C9 oWinBoard).2.1 (by decide) (by decide),
   (claim_C9 xCornerBoard).2.2.1 (by decide) (by decide),
   (claim_C9 c4Board).2.2.2 (by decide)⟩

/-- Claim C10: in `main.py` no operation other than construction/reset
writes `current_player`: `make_move`, `undo_move` and `clone` preserve it,
a fresh game has `current_player = 'X'`, `make_move` without an explicit
player places `current_player`, the rollout loop preserves it, and hence
every symbol placed during an `mcts` rollout from an X-to-move state is
`'X'`. -/
theorem claim_C10 :
    (∀ (g : Main.Game) (mv : Nat) (p : Option Char),
      (Main.makeMove g mv p).current = g.current) ∧
    (∀ (g : Main.Game) (mv : Nat), (Main.undoMove g mv).current = g.current) ∧
    (∀ (g : Main.Game), (Main.clone g).current = g.current) ∧
    Main.init.current = 'X' ∧
    (∀ (g : Main.Game) (mv : Nat),
      (Main.makeMove g mv none).board = g.board.set mv g.current) ∧
    (∀ (rng : Nat → Nat) (f c : Nat) (g : Main.Game),
      (Main.simGo rng f c g).1.current = g.current) ∧
    (∀ (rng : Nat → Nat) (f c : Nat) (g : Main.Game),
      g.current = 'X' → allX (Main.rolloutTrace rng f c g) = true) := by
  refine ⟨fun g mv p => rfl, fun g mv => rfl, fun g => rfl, rfl,
    fun g mv => rfl, Main.simGo_current, ?_⟩
  intro rng f c g hX
  simp only [allX, List.all_eq_true]
  intro s hs
  have hsc := Main.rolloutTrace_const rng f c g s hs
  simp [hsc, hX]

/-- Claim C10 witness: every symbol placed in a rollout from the fresh game
is X. -/
theorem claim_C10_witness :
    allX (Main.rolloutTrace (fun _ => 0) 9 0 Main.init) = true :=
  claim_C10.2.2.2.2.2.2 (fun _ => 0) 9 0 Main.init rfl
